import Mathlib

/-!
Verification of the NVRAM-backed key/value store of the hktimer repository
(file nvram.go and its mock harness in nvram_test.go).

Go strings are byte sequences; we embed them as lists of naturals, each
element a byte value.  The Command Adapter primitives (the swappable
`nvramGet`/`nvramSet`/`nvramUnset`/`nvramCommit`/`nvramShow` function
variables) are modelled twice:

* outcome-parametrised (`PrimOutcome`), to reason about error propagation
  and the commit policy of a single `Set`/`Get`/`Delete` call;
* state-based (`MState`), instantiating the primitives with the mock
  semantics of nvram_test.go (a map from physical key to stored string,
  a commit counter, and `show` joining `key=value` lines with newlines),
  which matches the depended-upon contract of the external tool.
-/

/-- A Go string / byte slice: a list of byte values. -/
abbrev GoStr := List Nat

/-- Embed an ASCII Lean string literal as a Go byte string. -/
def str (s : String) : GoStr := s.data.map Char.toNat

/-- All elements are genuine byte values (Go's []byte guarantees this). -/
def isBytes (v : GoStr) : Prop := ∀ b ∈ v, b < 256

instance (v : GoStr) : Decidable (isBytes v) := by
  unfold isBytes; infer_instance

/-- strings.HasSuffix: len(s) ≥ len(suf) and the tail of s equals suf. -/
def goHasSuffix (s suf : GoStr) : Bool :=
  decide (suf.length ≤ s.length) && decide (s.drop (s.length - suf.length) = suf)

/-- strings.TrimSuffix: s without the suffix when present, else s. -/
def goTrimSuffix (s suf : GoStr) : GoStr :=
  if goHasSuffix s suf then s.take (s.length - suf.length) else s

/-- strings.HasPrefix: len(s) ≥ len(pre) and the head of s equals pre. -/
def goHasPrefix (s pre : GoStr) : Bool :=
  decide (pre.length ≤ s.length) && decide (s.take pre.length = pre)

/-- strings.TrimPrefix: s without the prefix when present, else s. -/
def goTrimPrefix (s pre : GoStr) : GoStr :=
  if goHasPrefix s pre then s.drop pre.length else s

/-- encoding/hex: value of one hex digit ('0'-'9', 'a'-'f', 'A'-'F'). -/
def fromHexChar (c : Nat) : Option Nat :=
  if 48 ≤ c ∧ c ≤ 57 then some (c - 48)
  else if 97 ≤ c ∧ c ≤ 102 then some (c - 87)
  else if 65 ≤ c ∧ c ≤ 70 then some (c - 55)
  else none

/-- encoding/hex DecodeString: pairs of hex digits to bytes; errors on an
odd-length input or a non-hex digit. -/
def hexDecode : GoStr → Option GoStr
  | [] => some []
  | [_] => none
  | c1 :: c2 :: rest =>
    match fromHexChar c1, fromHexChar c2, hexDecode rest with
    | some hi, some lo, some bs => some ((16 * hi + lo) :: bs)
    | _, _, _ => none

/-- encoding/hex: lowercase digit for one nibble. -/
def hexDigit (n : Nat) : Nat :=
  if n < 10 then 48 + n else 87 + n

/-- encoding/hex EncodeToString: each byte to two lowercase hex digits. -/
def hexEncode (bs : GoStr) : GoStr :=
  bs.flatMap (fun b => [hexDigit (b % 256 / 16), hexDigit (b % 16)])

/-- The reserved namespace marker "hkt_" (const nvramPrefix in nvram.go). -/
def nvramPrefix : GoStr := str "hkt_"

/-- The reserved logical pairing suffix ".pairing". -/
def pairingSuffix : GoStr := str ".pairing"

/-- The secondary pairing sub-marker "p_" of physical pairing keys. -/
def pairingSub : GoStr := str "p_"

/-- The designated binary-typed logical key "configHash". -/
def configHashKey : GoStr := str "configHash"

/-- nvramKey (nvram.go): logical key to NVRAM variable name.  Pairing keys
have their hex-encoded UUID decoded to the readable UUID string; a failed
decode falls back to prepending the prefix to the whole key. -/
def nvramKey (key : GoStr) : GoStr :=
  if goHasSuffix key pairingSuffix then
    let hexName := goTrimSuffix key pairingSuffix
    match hexDecode hexName with
    | none => nvramPrefix ++ key
    | some name => nvramPrefix ++ pairingSub ++ name
  else nvramPrefix ++ key

example : nvramKey (str "uuid") = str "hkt_uuid" := by decide
example : nvramKey (str "configHash") = str "hkt_configHash" := by decide
example : nvramKey (str "6162.pairing") = str "hkt_p_ab" := by decide
example : nvramKey (str "zz.pairing") = str "hkt_zz.pairing" := by decide
example : nvramKey (str "6A.pairing") = str "hkt_p_j" := by decide

/-- Value Codec of Set (nvram.go): configHash is hex-encoded, every other
value is passed through as text. -/
def encodeValue (key value : GoStr) : GoStr :=
  if key = configHashKey then hexEncode value else value

/-- Errors surfaced by the store methods.  External-tool errors are opaque
tokens; Set wraps its set error in a distinct message, Get's missing-entry
error and the hex-decode error are further distinct error values. -/
inductive StoreErr : Type where
  /-- An external-tool error returned verbatim. -/
  | tool (e : Nat) : StoreErr
  /-- The set error wrapped by Set as fmt.Errorf with a message. -/
  | setWrap (e : Nat) : StoreErr
  /-- Get's no-entry-for-key error. -/
  | notFound : StoreErr
  /-- The hex.DecodeString error propagated by Get of configHash. -/
  | decode : StoreErr
deriving DecidableEq

instance {ε α : Type} [DecidableEq ε] [DecidableEq α] : DecidableEq (Except ε α) := fun a b =>
  match a, b with
  | Except.ok x, Except.ok y =>
    if h : x = y then isTrue (by rw [h]) else isFalse (fun hc => h (Except.ok.inj hc))
  | Except.error x, Except.error y =>
    if h : x = y then isTrue (by rw [h]) else isFalse (fun hc => h (Except.error.inj hc))
  | Except.ok _, Except.error _ => isFalse (fun hc => Except.noConfusion hc)
  | Except.error _, Except.ok _ => isFalse (fun hc => Except.noConfusion hc)

/-- One invocation outcome for each swappable Command Adapter primitive
(their Go function variables may be replaced, e.g. by the test mock);
errors are opaque tokens. -/
structure PrimOutcome : Type where
  getRes : GoStr → Except Nat GoStr
  setRes : GoStr → GoStr → Option Nat
  unsetRes : GoStr → Option Nat
  commitRes : Option Nat

/-- Set (nvram.go) over primitive outcomes.  Returns the method result and
the number of nvramCommit invocations performed. -/
def storeSet (p : PrimOutcome) (key value : GoStr) : Except StoreErr Unit × Nat :=
  let nkey := nvramKey key
  let encoded := encodeValue key value
  match p.setRes nkey encoded with
  | some e => (Except.error (StoreErr.setWrap e), 0)
  | none =>
    if goHasSuffix key pairingSuffix then
      match p.commitRes with
      | some e => (Except.error (StoreErr.tool e), 1)
      | none => (Except.ok (), 1)
    else (Except.ok (), 0)

/-- Get (nvram.go) over primitive outcomes. -/
def storeGet (p : PrimOutcome) (key : GoStr) : Except StoreErr GoStr :=
  let nkey := nvramKey key
  match p.getRes nkey with
  | Except.error e => Except.error (StoreErr.tool e)
  | Except.ok value =>
    if value = [] then Except.error StoreErr.notFound
    else if key = configHashKey then
      match hexDecode value with
      | some bs => Except.ok bs
      | none => Except.error StoreErr.decode
    else Except.ok value

/-- Delete (nvram.go) over primitive outcomes, with its commit count. -/
def storeDelete (p : PrimOutcome) (key : GoStr) : Except StoreErr Unit × Nat :=
  let nkey := nvramKey key
  match p.unsetRes nkey with
  | some e => (Except.error (StoreErr.tool e), 0)
  | none =>
    if goHasSuffix key pairingSuffix then
      match p.commitRes with
      | some e => (Except.error (StoreErr.tool e), 1)
      | none => (Except.ok (), 1)
    else (Except.ok (), 0)

/-! The state-based model: the working copy is an association list from
physical key to stored string, as in the mock of nvram_test.go and the
external tool's contract (getting an absent key yields the empty string). -/

/-- Mock nvramGet: the stored value, or the empty string when absent. -/
def mget : List (GoStr × GoStr) → GoStr → GoStr
  | [], _ => []
  | (k', v') :: rest, k => if k' = k then v' else mget rest k

/-- Mock nvramSet: replace the binding in place, or append a new one. -/
def mset : List (GoStr × GoStr) → GoStr → GoStr → List (GoStr × GoStr)
  | [], k, v => [(k, v)]
  | (k', v') :: rest, k, v =>
    if k' = k then (k, v) :: rest else (k', v') :: mset rest k v

/-- Mock nvramUnset: drop every binding of the key. -/
def munset : List (GoStr × GoStr) → GoStr → List (GoStr × GoStr)
  | [], _ => []
  | (k', v') :: rest, k =>
    if k' = k then munset rest k else (k', v') :: munset rest k

/-- strings.Join(lines, newline), as the mock nvramShow builds its dump. -/
def joinNl : List GoStr → GoStr
  | [] => []
  | [x] => x
  | x :: y :: rest => x ++ 10 :: joinNl (y :: rest)

/-- Mock nvramShow: every entry as a key=value line, newline-separated. -/
def mshow (d : List (GoStr × GoStr)) : GoStr :=
  joinNl (d.map (fun e => e.1 ++ 61 :: e.2))

/-- The store state: working-copy contents plus the flash-commit count. -/
structure MState : Type where
  data : List (GoStr × GoStr)
  commits : Nat
deriving DecidableEq

/-- The empty NVRAM working copy with no commits performed. -/
def initState : MState := ⟨[], 0⟩

namespace NvramStore

/-- Set (nvram.go) against the mock primitives: store the encoded value at
the physical key and commit exactly when the key is pairing-suffixed. -/
def Set (s : MState) (key value : GoStr) : MState :=
  let nkey := nvramKey key
  let encoded := encodeValue key value
  let d := mset s.data nkey encoded
  if goHasSuffix key pairingSuffix then ⟨d, s.commits + 1⟩ else ⟨d, s.commits⟩

/-- Get (nvram.go) against the mock primitives (mock get never fails). -/
def Get (s : MState) (key : GoStr) : Except StoreErr GoStr :=
  let nkey := nvramKey key
  let value := mget s.data nkey
  if value = [] then Except.error StoreErr.notFound
  else if key = configHashKey then
    match hexDecode value with
    | some bs => Except.ok bs
    | none => Except.error StoreErr.decode
  else Except.ok value

/-- Delete (nvram.go) against the mock primitives. -/
def Delete (s : MState) (key : GoStr) : MState :=
  let nkey := nvramKey key
  let d := munset s.data nkey
  if goHasSuffix key pairingSuffix then ⟨d, s.commits + 1⟩ else ⟨d, s.commits⟩

end NvramStore

/-- strings.Split(s, newline): auxiliary returning first segment and rest. -/
def splitNlAux : GoStr → GoStr × List GoStr
  | [] => ([], [])
  | c :: restS =>
    let r := splitNlAux restS
    if c = 10 then ([], r.1 :: r.2) else (c :: r.1, r.2)

/-- strings.Split(s, newline). -/
def splitNl (s : GoStr) : List GoStr :=
  (splitNlAux s).1 :: (splitNlAux s).2

/-- strings.SplitN(line, eq-sign, 2): text before the first eq-sign and the
rest, or none when the line has no eq-sign (Go then yields one part, which
KeysWithSuffix skips). -/
def splitEq1 : GoStr → Option (GoStr × GoStr)
  | [] => none
  | c :: rest =>
    if c = 61 then some ([], rest)
    else (splitEq1 rest).map (fun p => (c :: p.1, p.2))

/-- One loop iteration of KeysWithSuffix (nvram.go): the logical key the
line contributes, if any. -/
def processLine (suffix line : GoStr) : Option GoStr :=
  if line = [] then none
  else
    match splitEq1 line with
    | none => none
    | some (nkey, _) =>
      if goHasPrefix nkey nvramPrefix then
        if suffix = pairingSuffix ∧ goHasPrefix nkey (nvramPrefix ++ pairingSub) then
          some (hexEncode (goTrimPrefix nkey (nvramPrefix ++ pairingSub)) ++ pairingSuffix)
        else
          let key := goTrimPrefix nkey nvramPrefix
          if goHasSuffix key suffix then some key else none
      else none

namespace NvramStore

/-- KeysWithSuffix (nvram.go) against the mock primitives: dump the
namespace, keep reserved-prefix lines, reconstruct pairing keys through the
reverse transform and other keys by prefix stripping. -/
def KeysWithSuffix (s : MState) (suffix : GoStr) : List GoStr :=
  (splitNl (mshow s.data)).filterMap (processLine suffix)

end NvramStore

/-- The reverse transform applied during pairing enumeration: strip the
pairing sub-marker, hex-encode the remaining text, append the suffix. -/
def reconstructPairing (nkey : GoStr) : GoStr :=
  hexEncode (goTrimPrefix nkey (nvramPrefix ++ pairingSub)) ++ pairingSuffix

example :
    NvramStore.Get (NvramStore.Set initState (str "uuid") (str "AA")) (str "uuid") =
      Except.ok (str "AA") := by decide
example :
    NvramStore.KeysWithSuffix
      (NvramStore.Set (NvramStore.Set initState (str "uuid") (str "x"))
        (str "6162.pairing") (str "y")) pairingSuffix = [str "6162.pairing"] := by decide
example :
    NvramStore.KeysWithSuffix (NvramStore.Set initState (str "zz.pairing") (str "y"))
      pairingSuffix = [str "zz.pairing"] := by decide
example :
    NvramStore.KeysWithSuffix (NvramStore.Set initState (str "6A.pairing") (str "y"))
      pairingSuffix = [str "6a.pairing"] := by decide

/-- A lowercase hex digit: 0-9 or a-f. -/
def isLowerHexChar (c : Nat) : Bool :=
  decide ((48 ≤ c ∧ c ≤ 57) ∨ (97 ≤ c ∧ c ≤ 102))

/-- An even-length string of lowercase hex digits: exactly the image of
hexEncode, the canonical shape of the hex payload of a pairing key. -/
def isLowerHex (s : GoStr) : Bool :=
  decide (s.length % 2 = 0) && s.all isLowerHexChar

/-- Canonical pairing keys: pairing-suffixed, with a lowercase-hex payload
whose decoded text contains neither a newline nor an eq-sign byte (true of
every hex-encoded UUID the accessory server stores). -/
def canonicalPairingKey (k : GoStr) : Bool :=
  goHasSuffix k pairingSuffix &&
  isLowerHex (goTrimSuffix k pairingSuffix) &&
  (match hexDecode (goTrimSuffix k pairingSuffix) with
   | some bs => !(decide (10 ∈ bs)) && !(decide (61 ∈ bs))
   | none => false)

/-- A store mutation: one Set or one Delete call. -/
inductive Op : Type where
  | set (k v : GoStr) : Op
  | del (k : GoStr) : Op

/-- Run one store mutation against the mock-backed state. -/
def applyOp (s : MState) : Op → MState
  | Op.set k v => NvramStore.Set s k v
  | Op.del k => NvramStore.Delete s k

/-- Run a sequence of store mutations. -/
def runOps : MState → List Op → MState
  | s, [] => s
  | s, op :: rest => runOps (applyOp s op) rest

/-- Remove every occurrence of a key from a list of logical keys. -/
def removeKey : List GoStr → GoStr → List GoStr
  | [], _ => []
  | x :: rest, k => if x = k then removeKey rest k else x :: removeKey rest k

/-- How one mutation changes the set of live logical keys. -/
def stepLive (l : List GoStr) : Op → List GoStr
  | Op.set k _ => if k ∈ l then l else l ++ [k]
  | Op.del k => removeKey l k

/-- The logical keys Set and not subsequently Deleted by a sequence. -/
def liveKeys (ops : List Op) : List GoStr := ops.foldl stepLive []

/-- Benign mutations: canonical pairing keys and newline-free values. -/
def goodOp : Op → Bool
  | Op.set k v => canonicalPairingKey k && !(decide (10 ∈ v))
  | Op.del k => canonicalPairingKey k

/-- The simulation invariant tying the working copy to the live logical
keys: the physical keys are the encodings of the live keys in order, every
live key is canonical, and every stored value is newline-free. -/
def StoreInv (d : List (GoStr × GoStr)) (l : List GoStr) : Prop :=
  d.map Prod.fst = l.map nvramKey ∧
  (∀ k ∈ l, canonicalPairingKey k = true) ∧
  (∀ e ∈ d, ¬ 10 ∈ e.2)

/-- Lock acquisition modes of a sync.RWMutex. -/
inductive LockMode : Type where
  | shared : LockMode
  | exclusive : LockMode
deriving DecidableEq

/-- The four public store operations. -/
inductive StoreOp : Type where
  | set : StoreOp
  | get : StoreOp
  | delete : StoreOp
  | keysWithSuffix : StoreOp
deriving DecidableEq

/-- The mode each public method acquires s.mu in for its whole duration
(nvram.go: Set and Delete call mu.Lock with a deferred Unlock; Get and
KeysWithSuffix call mu.RLock with a deferred RUnlock). -/
def acquiredLockMode : StoreOp → LockMode
  | StoreOp.set => LockMode.exclusive
  | StoreOp.get => LockMode.shared
  | StoreOp.delete => LockMode.exclusive
  | StoreOp.keysWithSuffix => LockMode.shared

/-- Primitive outcomes that all succeed (get returns "x"). -/
def primOk : PrimOutcome :=
  ⟨fun _ => Except.ok (str "x"), fun _ _ => none, fun _ => none, none⟩

/-- Primitive outcomes whose set and unset calls fail, with error tokens 7
and 9 respectively. -/
def primFail : PrimOutcome :=
  ⟨fun _ => Except.ok (str "x"), fun _ _ => some 7, fun _ => some 9, none⟩

/-- Primitive outcomes whose get succeeds with the empty string. -/
def primEmptyGet : PrimOutcome :=
  ⟨fun _ => Except.ok [], fun _ _ => none, fun _ => none, none⟩

/-- Primitive outcomes whose get succeeds with a non-hex string. -/
def primBadHex : PrimOutcome :=
  ⟨fun _ => Except.ok (str "zz"), fun _ _ => none, fun _ => none, none⟩

theorem goHasPrefix_iff {s pre : GoStr} : goHasPrefix s pre = true ↔ ∃ r, s = pre ++ r := by
  unfold goHasPrefix
  simp only [Bool.and_eq_true, decide_eq_true_eq]
  constructor
  · rintro ⟨hle, htake⟩
    refine ⟨s.drop pre.length, ?_⟩
    conv_lhs => rw [← List.take_append_drop pre.length s]
    rw [htake]
  · rintro ⟨r, rfl⟩
    exact ⟨by simp, by simp⟩

theorem goHasSuffix_iff {s suf : GoStr} : goHasSuffix s suf = true ↔ ∃ a, s = a ++ suf := by
  unfold goHasSuffix
  simp only [Bool.and_eq_true, decide_eq_true_eq]
  constructor
  · rintro ⟨hle, hdrop⟩
    refine ⟨s.take (s.length - suf.length), ?_⟩
    conv_lhs => rw [← List.take_append_drop (s.length - suf.length) s]
    rw [hdrop]
  · rintro ⟨a, rfl⟩
    refine ⟨by simp, ?_⟩
    rw [List.length_append, Nat.add_sub_cancel, List.drop_left]

theorem goTrimPrefix_append (pre r : GoStr) : goTrimPrefix (pre ++ r) pre = r := by
  unfold goTrimPrefix
  rw [if_pos (goHasPrefix_iff.mpr ⟨r, rfl⟩), List.drop_left]

theorem goTrimSuffix_append (a suf : GoStr) : goTrimSuffix (a ++ suf) suf = a := by
  unfold goTrimSuffix
  rw [if_pos (goHasSuffix_iff.mpr ⟨a, rfl⟩), List.length_append, Nat.add_sub_cancel,
    List.take_left]

theorem goTrimSuffix_spec {s suf : GoStr} (h : goHasSuffix s suf = true) :
    goTrimSuffix s suf ++ suf = s := by
  obtain ⟨a, rfl⟩ := goHasSuffix_iff.mp h
  rw [goTrimSuffix_append]

theorem goHasPrefix_both (a b c : GoStr) :
    goHasPrefix (a ++ b) (a ++ c) = goHasPrefix b c := by
  cases hbc : goHasPrefix b c
  · cases habc : goHasPrefix (a ++ b) (a ++ c)
    · rfl
    · obtain ⟨r, hr⟩ := goHasPrefix_iff.mp habc
      rw [List.append_assoc] at hr
      have : b = c ++ r := List.append_cancel_left hr
      rw [goHasPrefix_iff.mpr ⟨r, this⟩] at hbc
      exact hbc
  · obtain ⟨r, rfl⟩ := goHasPrefix_iff.mp hbc
    rw [← List.append_assoc]
    exact goHasPrefix_iff.mpr ⟨r, rfl⟩

theorem fromHexChar_hexDigit {n : Nat} (h : n < 16) : fromHexChar (hexDigit n) = some n := by
  unfold hexDigit fromHexChar
  by_cases h10 : n < 10
  · rw [if_pos h10, if_pos (by omega)]
    simp only [Option.some.injEq]
    omega
  · rw [if_neg h10, if_neg (by omega), if_pos (by omega)]
    simp only [Option.some.injEq]
    omega

theorem hexDigit_isLower {n : Nat} (h : n < 16) : isLowerHexChar (hexDigit n) = true := by
  unfold hexDigit isLowerHexChar
  by_cases h10 : n < 10
  · rw [if_pos h10]; simp only [decide_eq_true_eq]; omega
  · rw [if_neg h10]; simp only [decide_eq_true_eq]; omega

theorem lowerChar_inv {c : Nat} (h : isLowerHexChar c = true) :
    ∃ n, n < 16 ∧ fromHexChar c = some n ∧ hexDigit n = c := by
  unfold isLowerHexChar at h
  rw [decide_eq_true_eq] at h
  unfold fromHexChar hexDigit
  rcases h with h | h
  · exact ⟨c - 48, by omega, by rw [if_pos (by omega)], by rw [if_pos (by omega)]; omega⟩
  · refine ⟨c - 87, by omega, ?_, by rw [if_neg (by omega)]; omega⟩
    rw [if_neg (by omega), if_pos (by omega)]

theorem hexEncode_nil : hexEncode [] = [] := rfl

theorem hexEncode_cons (b : Nat) (rest : GoStr) :
    hexEncode (b :: rest) = hexDigit (b % 256 / 16) :: hexDigit (b % 16) :: hexEncode rest := by
  simp [hexEncode]

theorem hexDecode_hexEncode {v : GoStr} (h : isBytes v) : hexDecode (hexEncode v) = some v := by
  induction v with
  | nil => rfl
  | cons b rest ih =>
    have hb : b < 256 := h b (by simp)
    have hrest : isBytes rest := fun x hx => h x (by simp [hx])
    rw [hexEncode_cons]
    unfold hexDecode
    rw [fromHexChar_hexDigit (by omega), fromHexChar_hexDigit (by omega), ih hrest]
    simp only [Option.some.injEq, List.cons.injEq, and_true]
    omega

theorem hexEncode_ne_nil {v : GoStr} (h : v ≠ []) : hexEncode v ≠ [] := by
  cases v with
  | nil => exact absurd rfl h
  | cons b rest => rw [hexEncode_cons]; exact List.cons_ne_nil _ _

theorem hexEncode_isLower (v : GoStr) : ∀ c ∈ hexEncode v, isLowerHexChar c = true := by
  induction v with
  | nil => intro c hc; cases hc
  | cons b rest ih =>
    intro c hc
    rw [hexEncode_cons] at hc
    simp only [List.mem_cons] at hc
    rcases hc with rfl | rfl | hc
    · exact hexDigit_isLower (by omega)
    · exact hexDigit_isLower (by omega)
    · exact ih c hc

theorem hexDecode_of_lower : ∀ s : GoStr, isLowerHex s = true →
    ∃ bs, hexDecode s = some bs ∧ hexEncode bs = s ∧ isBytes bs
  | [], _ => ⟨[], rfl, rfl, fun b hb => absurd hb (List.not_mem_nil b)⟩
  | [c], h => by
    exfalso
    unfold isLowerHex at h
    simp at h
  | c1 :: c2 :: rest, h => by
    have hparts : isLowerHexChar c1 = true ∧ isLowerHexChar c2 = true ∧
        isLowerHex rest = true := by
      unfold isLowerHex at h ⊢
      simp only [Bool.and_eq_true, decide_eq_true_eq, List.all_cons, List.length_cons] at h ⊢
      exact ⟨h.2.1, h.2.2.1, by omega, h.2.2.2⟩
    obtain ⟨n1, hn1, hf1, hd1⟩ := lowerChar_inv hparts.1
    obtain ⟨n2, hn2, hf2, hd2⟩ := lowerChar_inv hparts.2.1
    obtain ⟨bs, hdec, henc, hbytes⟩ := hexDecode_of_lower rest hparts.2.2
    refine ⟨(16 * n1 + n2) :: bs, ?_, ?_, ?_⟩
    · unfold hexDecode
      rw [hf1, hf2, hdec]
    · rw [hexEncode_cons, henc]
      have e1 : (16 * n1 + n2) % 256 / 16 = n1 := by omega
      have e2 : (16 * n1 + n2) % 16 = n2 := by omega
      rw [e1, e2, hd1, hd2]
    · intro b hb
      rcases List.mem_cons.mp hb with rfl | hb
      · omega
      · exact hbytes b hb

theorem mget_mset_self (d : List (GoStr × GoStr)) (k v : GoStr) :
    mget (mset d k v) k = v := by
  induction d with
  | nil => simp [mset, mget]
  | cons e rest ih =>
    obtain ⟨k', v'⟩ := e
    unfold mset
    by_cases hk : k' = k
    · rw [if_pos hk]; simp [mget]
    · rw [if_neg hk]; unfold mget; rw [if_neg hk]; exact ih

/-- C5: for every logical key k, the forward transform yields
reserved-prefix + "p_" + u when k is pairing-suffixed and its payload
hex-decodes to u, reserved-prefix + k when that decode fails (no error is
raised: nvramKey is total), and reserved-prefix + k verbatim when k is not
pairing-suffixed. -/
theorem c5_forwardCases (k : GoStr) :
    (goHasSuffix k pairingSuffix = true →
      (∀ u, hexDecode (goTrimSuffix k pairingSuffix) = some u →
        nvramKey k = nvramPrefix ++ pairingSub ++ u) ∧
      (hexDecode (goTrimSuffix k pairingSuffix) = none →
        nvramKey k = nvramPrefix ++ k)) ∧
    (goHasSuffix k pairingSuffix = false → nvramKey k = nvramPrefix ++ k) := by
  refine ⟨fun hs => ⟨fun u hu => ?_, fun hn => ?_⟩, fun hs => ?_⟩
  · simp only [nvramKey, if_pos hs, hu]
  · simp only [nvramKey, if_pos hs, hn]
  · simp [nvramKey, hs]

/-- Witness for c5_forwardCases: a decodable pairing key, a pairing key
with a malformed payload, and a plain key. -/
theorem c5_witness :
    nvramKey (str "6162.pairing") = nvramPrefix ++ pairingSub ++ str "ab" ∧
    nvramKey (str "zz.pairing") = nvramPrefix ++ str "zz.pairing" ∧
    nvramKey (str "uuid") = nvramPrefix ++ str "uuid" :=
  ⟨((c5_forwardCases (str "6162.pairing")).1 (by decide)).1 (str "ab") (by decide),
    ((c5_forwardCases (str "zz.pairing")).1 (by decide)).2 (by decide),
    (c5_forwardCases (str "uuid")).2 (by decide)⟩

/-- C9: the Key Encoder is not injective: the non-pairing key "p_ab" and
the pairing key "6162.pairing" are distinct yet share one physical key, so
a value Set under the former is returned by Get under the latter. -/
theorem c9_encoderCollision :
    str "p_ab" ≠ str "6162.pairing" ∧
    nvramKey (str "p_ab") = nvramKey (str "6162.pairing") ∧
    NvramStore.Get (NvramStore.Set initState (str "p_ab") (str "v"))
      (str "6162.pairing") = Except.ok (str "v") := by decide

/-- C10 as stated is false: KeysWithSuffix acquires the lock in shared
mode (mu.RLock in nvram.go), not exclusively. -/
theorem c10_counterexample :
    ¬(acquiredLockMode StoreOp.get = LockMode.shared ∧
      acquiredLockMode StoreOp.set = LockMode.exclusive ∧
      acquiredLockMode StoreOp.delete = LockMode.exclusive ∧
      acquiredLockMode StoreOp.keysWithSuffix = LockMode.exclusive) := by decide

/-- C10 amended: Get and KeysWithSuffix acquire the reader/writer lock in
shared mode; Set and Delete acquire it in exclusive mode. -/
theorem c10_lockModes :
    acquiredLockMode StoreOp.get = LockMode.shared ∧
    acquiredLockMode StoreOp.set = LockMode.exclusive ∧
    acquiredLockMode StoreOp.delete = LockMode.exclusive ∧
    acquiredLockMode StoreOp.keysWithSuffix = LockMode.shared := by decide

/-- C7: Get returns the not-found error (an error value distinct from any
external-tool error) exactly when the adapter's get succeeds with the
empty string, and Get of configHash propagates the hex-decode error when
the stored text is nonempty and not valid hex. -/
theorem c7_getErrors (p : PrimOutcome) (k : GoStr) :
    (storeGet p k = Except.error StoreErr.notFound ↔
      p.getRes (nvramKey k) = Except.ok []) ∧
    (∀ v, k = configHashKey → p.getRes (nvramKey k) = Except.ok v → v ≠ [] →
      hexDecode v = none → storeGet p k = Except.error StoreErr.decode) ∧
    (∀ e, StoreErr.notFound ≠ StoreErr.tool e) := by
  refine ⟨?_, fun v hk hres hv hdec => ?_, fun e h => StoreErr.noConfusion h⟩
  · cases hres : p.getRes (nvramKey k) with
    | error e => simp [storeGet, hres]
    | ok value =>
      by_cases hv : value = []
      · subst hv; simp [storeGet, hres]
      · by_cases hk : k = configHashKey
        · subst hk
          cases hdec : hexDecode value <;> simp [storeGet, hres, hv, hdec]
        · simp [storeGet, hres, hv, hk]
  · subst hk
    simp [storeGet, hres, hv, hdec]

/-- Witness for c7_getErrors: an empty read yields the not-found error;
a non-hex configHash read yields the decode error. -/
theorem c7_witness :
    storeGet primEmptyGet (str "uuid") = Except.error StoreErr.notFound ∧
    storeGet primBadHex configHashKey = Except.error StoreErr.decode :=
  ⟨(c7_getErrors primEmptyGet (str "uuid")).1.mpr rfl,
    (c7_getErrors primBadHex configHashKey).2.1 (str "zz") rfl rfl (by decide) (by decide)⟩

/-- C1: Set commits exactly once when the underlying set succeeds on a
pairing-suffixed key and never otherwise; a failed set yields the wrapped
error and no commit.  Delete commits exactly once when unset succeeds on a
pairing-suffixed key and never otherwise; a failed unset yields the unset
error verbatim and no commit. -/
theorem c1_commitPolicy (p : PrimOutcome) (k v : GoStr) :
    (p.setRes (nvramKey k) (encodeValue k v) = none →
      (storeSet p k v).2 = if goHasSuffix k pairingSuffix then 1 else 0) ∧
    (∀ e, p.setRes (nvramKey k) (encodeValue k v) = some e →
      storeSet p k v = (Except.error (StoreErr.setWrap e), 0)) ∧
    (p.unsetRes (nvramKey k) = none →
      (storeDelete p k).2 = if goHasSuffix k pairingSuffix then 1 else 0) ∧
    (∀ e, p.unsetRes (nvramKey k) = some e →
      storeDelete p k = (Except.error (StoreErr.tool e), 0)) := by
  refine ⟨fun h => ?_, fun e h => ?_, fun h => ?_, fun e h => ?_⟩
  · cases hc : p.commitRes <;> simp only [storeSet, h, hc] <;> split <;> rfl
  · simp only [storeSet, h]
  · cases hc : p.commitRes <;> simp only [storeDelete, h, hc] <;> split <;> rfl
  · simp only [storeDelete, h]

/-- Witness for c1_commitPolicy: one commit for a pairing Set and Delete,
none for a plain Set, and the error results when set and unset fail. -/
theorem c1_witness :
    (storeSet primOk (str "6162.pairing") (str "v")).2 = 1 ∧
    (storeSet primOk (str "uuid") (str "v")).2 = 0 ∧
    storeSet primFail (str "uuid") (str "v") = (Except.error (StoreErr.setWrap 7), 0) ∧
    (storeDelete primOk (str "6162.pairing")).2 = 1 ∧
    storeDelete primFail (str "6162.pairing") = (Except.error (StoreErr.tool 9), 0) := by
  refine ⟨?_, ?_, ?_, ?_, ?_⟩
  · rw [(c1_commitPolicy primOk (str "6162.pairing") (str "v")).1 rfl]; decide
  · rw [(c1_commitPolicy primOk (str "uuid") (str "v")).1 rfl]; decide
  · exact (c1_commitPolicy primFail (str "uuid") (str "v")).2.1 7 rfl
  · rw [(c1_commitPolicy primOk (str "6162.pairing") (str "v")).2.2.1 rfl]; decide
  · exact (c1_commitPolicy primFail (str "6162.pairing")
      (str "v")).2.2.2 9 rfl

theorem setData (s : MState) (k v : GoStr) :
    (NvramStore.Set s k v).data = mset s.data (nvramKey k) (encodeValue k v) := by
  unfold NvramStore.Set
  split <;> rfl

/-- C2 as stated is false at the empty value: Set("uuid", "") followed by
Get("uuid") yields the not-found error rather than the empty value,
because an empty stored string is indistinguishable from absence. -/
theorem c2_counterexample :
    goHasSuffix (str "uuid") pairingSuffix = false ∧
    NvramStore.Get (NvramStore.Set initState (str "uuid") []) (str "uuid") =
      Except.error StoreErr.notFound ∧
    NvramStore.Get (NvramStore.Set initState (str "uuid") []) (str "uuid") ≠
      Except.ok [] := by decide

/-- C2 amended: for every non-pairing logical key k and every nonempty
byte value v, Get(k) directly after Set(k, v) returns exactly v, and the
Set performs no commit (Get is read-only by construction). -/
theorem c2_roundTrip (s : MState) (k v : GoStr)
    (hk : goHasSuffix k pairingSuffix = false) (hv : v ≠ []) (hb : isBytes v) :
    NvramStore.Get (NvramStore.Set s k v) k = Except.ok v ∧
    (NvramStore.Set s k v).commits = s.commits := by
  have hset : NvramStore.Set s k v =
      ⟨mset s.data (nvramKey k) (encodeValue k v), s.commits⟩ := by
    simp [NvramStore.Set, hk]
  rw [hset]
  refine ⟨?_, rfl⟩
  by_cases hck : k = configHashKey
  · subst hck
    simp [NvramStore.Get, mget_mset_self, encodeValue, hexEncode_ne_nil hv,
      hexDecode_hexEncode hb]
  · simp [NvramStore.Get, mget_mset_self, encodeValue, hck, hv]

/-- Witness for c2_roundTrip at the scenario of the spec: the uuid key and
a MAC-address text value. -/
theorem c2_witness :
    NvramStore.Get (NvramStore.Set initState (str "uuid") (str "AA:BB:CC:DD:EE:FF"))
      (str "uuid") = Except.ok (str "AA:BB:CC:DD:EE:FF") ∧
    (NvramStore.Set initState (str "uuid") (str "AA:BB:CC:DD:EE:FF")).commits =
      initState.commits :=
  c2_roundTrip initState (str "uuid") (str "AA:BB:CC:DD:EE:FF")
    (by decide) (by decide) (by decide)

/-- C6 as stated is false at the empty value: Set("configHash", "") stores
the empty string and the following Get returns the not-found error, not
the empty byte value. -/
theorem c6_counterexample :
    NvramStore.Get (NvramStore.Set initState configHashKey []) configHashKey =
      Except.error StoreErr.notFound ∧
    NvramStore.Get (NvramStore.Set initState configHashKey []) configHashKey ≠
      Except.ok [] := by decide

/-- C6 amended: for every nonempty byte value, Set of configHash stores
the lowercase hex encoding at rest and Get recovers the value byte-exact;
for every other logical key the bytes are stored and returned verbatim. -/
theorem c6_valueCodec (s : MState) (v : GoStr) (hv : v ≠ []) (hb : isBytes v)
    (k : GoStr) (hk : k ≠ configHashKey) :
    (mget (NvramStore.Set s configHashKey v).data (nvramKey configHashKey) = hexEncode v ∧
      (∀ c ∈ hexEncode v, isLowerHexChar c = true) ∧
      NvramStore.Get (NvramStore.Set s configHashKey v) configHashKey = Except.ok v) ∧
    (mget (NvramStore.Set s k v).data (nvramKey k) = v ∧
      NvramStore.Get (NvramStore.Set s k v) k = Except.ok v) := by
  refine ⟨⟨?_, hexEncode_isLower v, ?_⟩, ?_, ?_⟩
  · rw [setData, mget_mset_self, encodeValue, if_pos rfl]
  · simp [NvramStore.Get, setData, mget_mset_self, encodeValue, hexEncode_ne_nil hv,
      hexDecode_hexEncode hb]
  · rw [setData, mget_mset_self, encodeValue, if_neg hk]
  · simp [NvramStore.Get, setData, mget_mset_self, encodeValue, hk, hv]

/-- Witness for c6_valueCodec at the test's binary payload and a text
key. -/
theorem c6_witness :
    (mget (NvramStore.Set initState configHashKey [0, 1, 255, 254, 128, 127]).data
        (nvramKey configHashKey) = hexEncode [0, 1, 255, 254, 128, 127] ∧
      (∀ c ∈ hexEncode [0, 1, 255, 254, 128, 127], isLowerHexChar c = true) ∧
      NvramStore.Get (NvramStore.Set initState configHashKey [0, 1, 255, 254, 128, 127])
        configHashKey = Except.ok [0, 1, 255, 254, 128, 127]) ∧
    (mget (NvramStore.Set initState (str "keypair") [0, 1, 255, 254, 128, 127]).data
        (nvramKey (str "keypair")) = [0, 1, 255, 254, 128, 127] ∧
      NvramStore.Get (NvramStore.Set initState (str "keypair") [0, 1, 255, 254, 128, 127])
        (str "keypair") = Except.ok [0, 1, 255, 254, 128, 127]) :=
  c6_valueCodec initState [0, 1, 255, 254, 128, 127] (by decide) (by decide)
    (str "keypair") (by decide)

/-- C3 as stated is false: "6A.pairing" is encoded without hitting the
hex-decode fallback (its payload is valid hex), yet the reverse transform
of its physical key yields the lowercase "6a.pairing", not the original. -/
theorem c3_counterexample :
    hexDecode (goTrimSuffix (str "6A.pairing") pairingSuffix) = some [106] ∧
    reconstructPairing (nvramKey (str "6A.pairing")) = str "6a.pairing" ∧
    reconstructPairing (nvramKey (str "6A.pairing")) ≠ str "6A.pairing" := by decide

/-- C3 amended: for every pairing-suffixed logical key whose payload is an
even-length lowercase hex string (the shape hex.EncodeToString produces;
decode then cannot fall back), applying the reverse transform to the
produced physical key yields exactly the original key. -/
theorem c3_roundTrip (k : GoStr) (hs : goHasSuffix k pairingSuffix = true)
    (hl : isLowerHex (goTrimSuffix k pairingSuffix) = true) :
    reconstructPairing (nvramKey k) = k := by
  obtain ⟨bs, hdec, henc, hbytes⟩ := hexDecode_of_lower _ hl
  have hk : nvramKey k = nvramPrefix ++ pairingSub ++ bs := by
    simp only [nvramKey, if_pos hs, hdec]
  rw [hk]
  unfold reconstructPairing
  rw [goTrimPrefix_append, henc]
  exact goTrimSuffix_spec hs

/-- Witness for c3_roundTrip at the hex-encoded pairing UUID used by the
repository's tests. -/
theorem c3_witness :
    reconstructPairing (nvramKey (str
      "33313046433135382d423239452d344635322d423542322d413734324344464345383141.pairing")) =
    str "33313046433135382d423239452d344635322d423542322d413734324344464345383141.pairing" :=
  c3_roundTrip _ (by decide) (by decide)

theorem splitNlAux_no10 {s : GoStr} (h : ¬ 10 ∈ s) : splitNlAux s = (s, []) := by
  induction s with
  | nil => rfl
  | cons c rest ih =>
    have hc : ¬ c = 10 := fun hc => h (by simp [hc])
    have hr : ¬ 10 ∈ rest := fun hr => h (by simp [hr])
    simp [splitNlAux, hc, ih hr]

theorem splitNl_no10 {s : GoStr} (h : ¬ 10 ∈ s) : splitNl s = [s] := by
  unfold splitNl
  rw [splitNlAux_no10 h]

theorem splitNlAux_append (a b : GoStr) :
    splitNlAux (a ++ 10 :: b) = ((splitNlAux a).1, (splitNlAux a).2 ++ splitNl b) := by
  induction a with
  | nil => simp [splitNlAux, splitNl]
  | cons c a' ih =>
    by_cases hc : c = 10
    · subst hc
      simp [splitNlAux, ih, splitNl]
    · simp [splitNlAux, hc, ih]

theorem splitNl_append (a b : GoStr) : splitNl (a ++ 10 :: b) = splitNl a ++ splitNl b := by
  unfold splitNl
  rw [splitNlAux_append]
  rfl

theorem mem_splitNl_joinNl {x : GoStr} :
    ∀ {pieces : List GoStr}, x ∈ pieces → ¬ 10 ∈ x → x ∈ splitNl (joinNl pieces)
  | [], hx, _ => absurd hx (List.not_mem_nil x)
  | [p], hx, h10 => by
    rcases List.mem_cons.mp hx with rfl | hx
    · rw [joinNl, splitNl_no10 h10]
      exact List.mem_singleton.mpr rfl
    · exact absurd hx (List.not_mem_nil x)
  | p :: q :: rest, hx, h10 => by
    rw [joinNl, splitNl_append]
    rcases List.mem_cons.mp hx with rfl | hx
    · exact List.mem_append_left _ (by rw [splitNl_no10 h10]; exact List.mem_singleton.mpr rfl)
    · exact List.mem_append_right _ (mem_splitNl_joinNl hx h10)

theorem splitNl_joinNl : ∀ {pieces : List GoStr}, pieces ≠ [] →
    (∀ p ∈ pieces, ¬ 10 ∈ p) → splitNl (joinNl pieces) = pieces
  | [], hne, _ => absurd rfl hne
  | [p], _, h => by
    rw [joinNl, splitNl_no10 (h p (List.mem_singleton.mpr rfl))]
  | p :: q :: rest, _, h => by
    rw [joinNl, splitNl_append, splitNl_no10 (h p (by simp)),
      splitNl_joinNl (List.cons_ne_nil q rest) (fun x hx => h x (List.mem_cons_of_mem p hx))]
    rfl

theorem splitEq1_append {k : GoStr} (v : GoStr) (h : ¬ 61 ∈ k) :
    splitEq1 (k ++ 61 :: v) = some (k, v) := by
  induction k with
  | nil => simp [splitEq1]
  | cons c rest ih =>
    have hc : ¬ c = 61 := fun hc => h (by simp [hc])
    have hr : ¬ 61 ∈ rest := fun hr => h (by simp [hr])
    simp [splitEq1, hc, ih hr]

theorem line_ne_nil (nk v : GoStr) : nk ++ 61 :: v ≠ [] := by
  simp [List.append_eq_nil]

/-- A reserved-prefix physical key carries no newline and no eq-sign byte
when its logical remainder carries none. -/
theorem noByte_nvramPrefix_append {k : GoStr} {b : Nat} (hb : b = 10 ∨ b = 61)
    (h : ¬ b ∈ k) : ¬ b ∈ nvramPrefix ++ k := by
  intro hc
  rcases List.mem_append.mp hc with hc | hc
  · rcases hb with rfl | rfl <;> revert hc <;> decide
  · exact h hc

theorem processLine_pairingLine (bs v : GoStr) (h61 : ¬ 61 ∈ bs) :
    processLine pairingSuffix ((nvramPrefix ++ pairingSub ++ bs) ++ 61 :: v) =
      some (hexEncode bs ++ pairingSuffix) := by
  have hnk61 : ¬ 61 ∈ nvramPrefix ++ pairingSub ++ bs := by
    intro hc
    rcases List.mem_append.mp hc with hc | hc
    · revert hc; decide
    · exact h61 hc
  have hpre1 : goHasPrefix (nvramPrefix ++ (pairingSub ++ bs)) nvramPrefix = true :=
    goHasPrefix_iff.mpr ⟨pairingSub ++ bs, rfl⟩
  have hpre2 : goHasPrefix (nvramPrefix ++ (pairingSub ++ bs))
      (nvramPrefix ++ pairingSub) = true := by
    rw [← List.append_assoc]
    exact goHasPrefix_iff.mpr ⟨bs, rfl⟩
  have htrim : goTrimPrefix (nvramPrefix ++ (pairingSub ++ bs))
      (nvramPrefix ++ pairingSub) = bs := by
    rw [← List.append_assoc]
    exact goTrimPrefix_append _ _
  unfold processLine
  rw [if_neg (line_ne_nil _ v), splitEq1_append v hnk61]
  simp [hpre1, hpre2, htrim]

theorem processLine_fallbackLine (k v : GoStr) (h61 : ¬ 61 ∈ k)
    (hsuf : goHasSuffix k pairingSuffix = true) (hsub : goHasPrefix k pairingSub = false) :
    processLine pairingSuffix ((nvramPrefix ++ k) ++ 61 :: v) = some k := by
  have hpre1 : goHasPrefix (nvramPrefix ++ k) nvramPrefix = true :=
    goHasPrefix_iff.mpr ⟨k, rfl⟩
  have hpre2 : goHasPrefix (nvramPrefix ++ k) (nvramPrefix ++ pairingSub) = false := by
    rw [goHasPrefix_both, hsub]
  unfold processLine
  rw [if_neg (line_ne_nil _ v),
    splitEq1_append v (noByte_nvramPrefix_append (Or.inr rfl) h61)]
  simp [hpre1, hpre2, goTrimPrefix_append, hsuf]

theorem mem_mset_self (d : List (GoStr × GoStr)) (k v : GoStr) : (k, v) ∈ mset d k v := by
  induction d with
  | nil => simp [mset]
  | cons e rest ih =>
    obtain ⟨k', v'⟩ := e
    unfold mset
    by_cases hk : k' = k
    · rw [if_pos hk]; exact List.mem_cons_self _ _
    · rw [if_neg hk]; exact List.mem_cons_of_mem _ ih

theorem mem_line_of_mem_data {d : List (GoStr × GoStr)} {nk v : GoStr}
    (hmem : (nk, v) ∈ d) (hk10 : ¬ 10 ∈ nk) (hv10 : ¬ 10 ∈ v) :
    (nk ++ 61 :: v) ∈ splitNl (mshow d) := by
  unfold mshow
  refine mem_splitNl_joinNl (List.mem_map_of_mem _ hmem) ?_
  intro hc
  rcases List.mem_append.mp hc with hc | hc
  · exact hk10 hc
  · rcases List.mem_cons.mp hc with hc | hc
    · omega
    · exact hv10 hc

/-- C8 as stated is false: "zz.pairing" hits the hex-decode fallback, yet
after Set it IS returned by KeysWithSuffix(".pairing"): the enumeration's
plain prefix-stripping branch still reconstructs it. -/
theorem c8_counterexample :
    hexDecode (goTrimSuffix (str "zz.pairing") pairingSuffix) = none ∧
    str "zz.pairing" ∈ NvramStore.KeysWithSuffix
      (NvramStore.Set initState (str "zz.pairing") (str "x")) pairingSuffix := by decide

/-- C8 amended: an entry stored through the encoder's fallback shape is
still returned verbatim by KeysWithSuffix(".pairing") via plain
prefix-stripping, whenever the logical key does not itself begin with
"p_" and the key and value are free of newline and (for the key) eq-sign
bytes. -/
theorem c8_fallbackVisible (s : MState) (k v : GoStr)
    (hsuf : goHasSuffix k pairingSuffix = true)
    (hdec : hexDecode (goTrimSuffix k pairingSuffix) = none)
    (hsub : goHasPrefix k pairingSub = false)
    (hk10 : ¬ 10 ∈ k) (hk61 : ¬ 61 ∈ k) (hv10 : ¬ 10 ∈ v) :
    k ∈ NvramStore.KeysWithSuffix (NvramStore.Set s k v) pairingSuffix := by
  have hck : k ≠ configHashKey := by
    intro hc
    rw [hc] at hsuf
    revert hsuf
    decide
  have henc : encodeValue k v = v := by rw [encodeValue, if_neg hck]
  have hkey : nvramKey k = nvramPrefix ++ k := by
    simp only [nvramKey, if_pos hsuf, hdec]
  unfold NvramStore.KeysWithSuffix
  refine List.mem_filterMap.mpr ⟨(nvramPrefix ++ k) ++ 61 :: v, ?_, ?_⟩
  · rw [setData, henc, hkey]
    exact mem_line_of_mem_data (mem_mset_self _ _ _)
      (noByte_nvramPrefix_append (Or.inl rfl) hk10) hv10
  · exact processLine_fallbackLine k v hk61 hsuf hsub

/-- Witness for c8_fallbackVisible at another malformed-hex pairing key. -/
theorem c8_witness :
    str "zy.pairing" ∈ NvramStore.KeysWithSuffix
      (NvramStore.Set initState (str "zy.pairing") (str "x")) pairingSuffix :=
  c8_fallbackVisible initState (str "zy.pairing") (str "x") (by decide) (by decide)
    (by decide) (by decide) (by decide) (by decide)

theorem canonical_decomp {k : GoStr} (hk : canonicalPairingKey k = true) :
    ∃ bs, hexDecode (goTrimSuffix k pairingSuffix) = some bs ∧
      nvramKey k = nvramPrefix ++ pairingSub ++ bs ∧
      hexEncode bs = goTrimSuffix k pairingSuffix ∧
      goHasSuffix k pairingSuffix = true ∧ ¬ 10 ∈ bs ∧ ¬ 61 ∈ bs := by
  unfold canonicalPairingKey at hk
  simp only [Bool.and_eq_true] at hk
  obtain ⟨⟨hsuf, hlow⟩, hmatch⟩ := hk
  obtain ⟨bs, hdec, henc, hbytes⟩ := hexDecode_of_lower _ hlow
  rw [hdec] at hmatch
  simp only [Bool.and_eq_true, Bool.not_eq_true', decide_eq_false_iff_not] at hmatch
  exact ⟨bs, hdec, by simp only [nvramKey, if_pos hsuf, hdec], henc, hsuf,
    hmatch.1, hmatch.2⟩

theorem canonical_ne_configHash {k : GoStr} (hk : canonicalPairingKey k = true) :
    k ≠ configHashKey := by
  intro hc
  subst hc
  revert hk
  decide

theorem nvramKey_inj_canonical {k1 k2 : GoStr} (h1 : canonicalPairingKey k1 = true)
    (h2 : canonicalPairingKey k2 = true) (heq : nvramKey k1 = nvramKey k2) : k1 = k2 := by
  obtain ⟨bs1, _, hkey1, henc1, hsuf1, _, _⟩ := canonical_decomp h1
  obtain ⟨bs2, _, hkey2, henc2, hsuf2, _, _⟩ := canonical_decomp h2
  rw [hkey1, hkey2] at heq
  have hbs : bs1 = bs2 := List.append_cancel_left heq
  have htrim : goTrimSuffix k1 pairingSuffix = goTrimSuffix k2 pairingSuffix := by
    rw [← henc1, ← henc2, hbs]
  rw [← goTrimSuffix_spec hsuf1, ← goTrimSuffix_spec hsuf2, htrim]

theorem nvramKey_noBytes {k : GoStr} (hk : canonicalPairingKey k = true) :
    ¬ 10 ∈ nvramKey k ∧ ¬ 61 ∈ nvramKey k := by
  obtain ⟨bs, _, hkey, _, _, h10, h61⟩ := canonical_decomp hk
  rw [hkey]
  constructor <;> intro hc <;> rcases List.mem_append.mp hc with hc | hc
  · rcases List.mem_append.mp hc with hc | hc <;> revert hc <;> decide
  · exact h10 hc
  · rcases List.mem_append.mp hc with hc | hc <;> revert hc <;> decide
  · exact h61 hc

theorem mem_map_nvramKey_iff {l : List GoStr} {k : GoStr}
    (hcanon : ∀ k' ∈ l, canonicalPairingKey k' = true)
    (hk : canonicalPairingKey k = true) :
    nvramKey k ∈ l.map nvramKey ↔ k ∈ l := by
  constructor
  · intro hmem
    obtain ⟨k', hk', heq⟩ := List.mem_map.mp hmem
    rw [← nvramKey_inj_canonical (hcanon k' hk') hk heq]
    exact hk'
  · exact List.mem_map_of_mem nvramKey

theorem map_fst_mset (d : List (GoStr × GoStr)) (nk v : GoStr) :
    (mset d nk v).map Prod.fst =
      if nk ∈ d.map Prod.fst then d.map Prod.fst else d.map Prod.fst ++ [nk] := by
  induction d with
  | nil => simp [mset]
  | cons e rest ih =>
    obtain ⟨k', v'⟩ := e
    by_cases hk : k' = nk
    · subst hk
      simp [mset]
    · by_cases hmem : nk ∈ rest.map Prod.fst <;>
        simp [mset, hk, ih, hmem, Ne.symm hk]

theorem map_fst_munset (d : List (GoStr × GoStr)) (nk : GoStr) :
    (munset d nk).map Prod.fst = removeKey (d.map Prod.fst) nk := by
  induction d with
  | nil => simp [munset, removeKey]
  | cons e rest ih =>
    obtain ⟨k', v'⟩ := e
    by_cases hk : k' = nk <;> simp [munset, removeKey, hk, ih]

theorem mem_mset_values {d : List (GoStr × GoStr)} {nk v : GoStr} {e : GoStr × GoStr}
    (he : e ∈ mset d nk v) : e.2 = v ∨ e ∈ d := by
  induction d with
  | nil =>
    rcases List.mem_singleton.mp he with rfl
    exact Or.inl rfl
  | cons e' rest ih =>
    obtain ⟨k', v'⟩ := e'
    by_cases hk : k' = nk
    · rw [mset, if_pos hk] at he
      rcases List.mem_cons.mp he with rfl | he
      · exact Or.inl rfl
      · exact Or.inr (List.mem_cons_of_mem _ he)
    · rw [mset, if_neg hk] at he
      rcases List.mem_cons.mp he with rfl | he
      · exact Or.inr (List.mem_cons_self _ _)
      · rcases ih he with h | h
        · exact Or.inl h
        · exact Or.inr (List.mem_cons_of_mem _ h)

theorem mem_munset_sub {d : List (GoStr × GoStr)} {nk : GoStr} {e : GoStr × GoStr}
    (he : e ∈ munset d nk) : e ∈ d := by
  induction d with
  | nil => exact absurd he (List.not_mem_nil e)
  | cons e' rest ih =>
    obtain ⟨k', v'⟩ := e'
    by_cases hk : k' = nk
    · rw [munset, if_pos hk] at he
      exact List.mem_cons_of_mem _ (ih he)
    · rw [munset, if_neg hk] at he
      rcases List.mem_cons.mp he with rfl | he
      · exact List.mem_cons_self _ _
      · exact List.mem_cons_of_mem _ (ih he)

theorem mem_removeKey_sub {l : List GoStr} {k x : GoStr} (hx : x ∈ removeKey l k) :
    x ∈ l := by
  induction l with
  | nil => exact absurd hx (List.not_mem_nil x)
  | cons y rest ih =>
    by_cases hy : y = k
    · rw [removeKey, if_pos hy] at hx
      exact List.mem_cons_of_mem _ (ih hx)
    · rw [removeKey, if_neg hy] at hx
      rcases List.mem_cons.mp hx with rfl | hx
      · exact List.mem_cons_self _ _
      · exact List.mem_cons_of_mem _ (ih hx)

theorem removeKey_map_nvramKey {l : List GoStr} {k : GoStr}
    (hcanon : ∀ k' ∈ l, canonicalPairingKey k' = true)
    (hk : canonicalPairingKey k = true) :
    removeKey (l.map nvramKey) (nvramKey k) = (removeKey l k).map nvramKey := by
  induction l with
  | nil => rfl
  | cons x rest ih =>
    have hx : canonicalPairingKey x = true := hcanon x (List.mem_cons_self x rest)
    have hrest : ∀ k' ∈ rest, canonicalPairingKey k' = true :=
      fun k' hk' => hcanon k' (List.mem_cons_of_mem x hk')
    by_cases hxk : x = k
    · subst hxk
      simp [removeKey, ih hrest]
    · have hne : nvramKey x ≠ nvramKey k :=
        fun hc => hxk (nvramKey_inj_canonical hx hk hc)
      simp [removeKey, hxk, hne, ih hrest]

theorem filterMap_pairingLines : ∀ (d : List (GoStr × GoStr)) (l : List GoStr),
    d.map Prod.fst = l.map nvramKey →
    (∀ k ∈ l, canonicalPairingKey k = true) →
    (d.map (fun e => e.1 ++ 61 :: e.2)).filterMap (processLine pairingSuffix) = l
  | [], l, hmap, _ => by
    cases l with
    | nil => rfl
    | cons k l' => exact absurd hmap (by simp)
  | (nk, v) :: d', l, hmap, hcanon => by
    cases l with
    | nil => exact absurd hmap (by simp)
    | cons k l' =>
      simp only [List.map_cons, List.cons.injEq] at hmap
      obtain ⟨hnk, hmap2⟩ := hmap
      have hk := hcanon k (List.mem_cons_self k l')
      have hrest : ∀ k' ∈ l', canonicalPairingKey k' = true :=
        fun k' h => hcanon k' (List.mem_cons_of_mem k h)
      obtain ⟨bs, _, hkey, henc, hsuf, _, h61⟩ := canonical_decomp hk
      have hproc : processLine pairingSuffix (nk ++ 61 :: v) = some k := by
        rw [hnk, hkey, processLine_pairingLine bs v h61, henc, goTrimSuffix_spec hsuf]
      simp only [List.map_cons, List.filterMap_cons, hproc]
      rw [filterMap_pairingLines d' l' hmap2 hrest]

theorem splitNl_mshow {d : List (GoStr × GoStr)} (hne : d ≠ [])
    (h : ∀ e ∈ d, ¬ 10 ∈ e.1 ∧ ¬ 10 ∈ e.2) :
    splitNl (mshow d) = d.map (fun e => e.1 ++ 61 :: e.2) := by
  unfold mshow
  refine splitNl_joinNl (fun hc => hne (List.map_eq_nil_iff.mp hc)) ?_
  intro p hp
  obtain ⟨e, he, rfl⟩ := List.mem_map.mp hp
  intro hc
  rcases List.mem_append.mp hc with hc | hc
  · exact (h e he).1 hc
  · rcases List.mem_cons.mp hc with hc | hc
    · omega
    · exact (h e he).2 hc

theorem keysWithSuffix_of_inv (s : MState) (l : List GoStr) (h : StoreInv s.data l) :
    NvramStore.KeysWithSuffix s pairingSuffix = l := by
  obtain ⟨hmap, hcanon, hvals⟩ := h
  cases hd : s.data with
  | nil =>
    have hl : l = [] := by
      rw [hd] at hmap
      exact List.map_eq_nil_iff.mp hmap.symm
    rw [hl]
    unfold NvramStore.KeysWithSuffix
    rw [hd]
    rfl
  | cons e d' =>
    have h10 : ∀ e' ∈ s.data, ¬ 10 ∈ e'.1 ∧ ¬ 10 ∈ e'.2 := by
      intro e' he'
      refine ⟨?_, hvals e' he'⟩
      have hmem : e'.1 ∈ l.map nvramKey := by
        rw [← hmap]
        exact List.mem_map_of_mem Prod.fst he'
      obtain ⟨k', hk', heq⟩ := List.mem_map.mp hmem
      rw [← heq]
      exact (nvramKey_noBytes (hcanon k' hk')).1
    unfold NvramStore.KeysWithSuffix
    rw [splitNl_mshow (by rw [hd]; exact List.cons_ne_nil e d') h10]
    exact filterMap_pairingLines s.data l hmap hcanon

theorem storeInv_mset {d : List (GoStr × GoStr)} {l : List GoStr} {k v : GoStr}
    (h : StoreInv d l) (hk : canonicalPairingKey k = true) (hv : ¬ 10 ∈ v) :
    StoreInv (mset d (nvramKey k) v) (if k ∈ l then l else l ++ [k]) := by
  obtain ⟨hmap, hcanon, hvals⟩ := h
  refine ⟨?_, ?_, ?_⟩
  · rw [map_fst_mset, hmap]
    by_cases hmem : k ∈ l
    · rw [if_pos ((mem_map_nvramKey_iff hcanon hk).mpr hmem), if_pos hmem]
    · rw [if_neg (fun hc => hmem ((mem_map_nvramKey_iff hcanon hk).mp hc)),
        if_neg hmem, List.map_append]
      rfl
  · intro k' hk'
    by_cases hmem : k ∈ l
    · rw [if_pos hmem] at hk'
      exact hcanon k' hk'
    · rw [if_neg hmem] at hk'
      rcases List.mem_append.mp hk' with h' | h'
      · exact hcanon k' h'
      · rw [List.mem_singleton.mp h']
        exact hk
  · intro e he
    rcases mem_mset_values he with h' | h'
    · rw [h']
      exact hv
    · exact hvals e h'

theorem storeInv_munset {d : List (GoStr × GoStr)} {l : List GoStr} {k : GoStr}
    (h : StoreInv d l) (hk : canonicalPairingKey k = true) :
    StoreInv (munset d (nvramKey k)) (removeKey l k) := by
  obtain ⟨hmap, hcanon, hvals⟩ := h
  exact ⟨by rw [map_fst_munset, hmap, removeKey_map_nvramKey hcanon hk],
    fun k' hk' => hcanon k' (mem_removeKey_sub hk'),
    fun e he => hvals e (mem_munset_sub he)⟩

theorem storeInv_runOps : ∀ (ops : List Op) (s : MState) (l : List GoStr),
    StoreInv s.data l → (∀ op ∈ ops, goodOp op = true) →
    StoreInv (runOps s ops).data (ops.foldl stepLive l)
  | [], _, _, h, _ => h
  | op :: rest, s, l, h, hops => by
    have hop : goodOp op = true := hops op (List.mem_cons_self op rest)
    have hrest : ∀ o ∈ rest, goodOp o = true :=
      fun o ho => hops o (List.mem_cons_of_mem op ho)
    cases op with
    | set k v =>
      have hparts : canonicalPairingKey k = true ∧ ¬ 10 ∈ v := by
        unfold goodOp at hop
        simp only [Bool.and_eq_true, Bool.not_eq_true', decide_eq_false_iff_not] at hop
        exact hop
      have hdata : (applyOp s (Op.set k v)).data = mset s.data (nvramKey k) v := by
        show (NvramStore.Set s k v).data = _
        rw [setData, encodeValue, if_neg (canonical_ne_configHash hparts.1)]
      refine storeInv_runOps rest _ _ ?_ hrest
      rw [hdata]
      exact storeInv_mset h hparts.1 hparts.2
    | del k =>
      have hdata : (applyOp s (Op.del k)).data = munset s.data (nvramKey k) := by
        show (NvramStore.Delete s k).data = _
        unfold NvramStore.Delete
        split <;> rfl
      refine storeInv_runOps rest _ _ ?_ hrest
      rw [hdata]
      exact storeInv_munset h hop

/-- C4 as stated is false: the single pairing-suffixed Set of
"6A.pairing" leaves the enumeration returning the lowercased
"6a.pairing" instead of the key that was Set. -/
theorem c4_counterexample :
    goHasSuffix (str "6A.pairing") pairingSuffix = true ∧
    liveKeys [Op.set (str "6A.pairing") (str "x")] = [str "6A.pairing"] ∧
    NvramStore.KeysWithSuffix (runOps initState [Op.set (str "6A.pairing") (str "x")])
      pairingSuffix = [str "6a.pairing"] ∧
    ¬ str "6A.pairing" ∈ NvramStore.KeysWithSuffix
      (runOps initState [Op.set (str "6A.pairing") (str "x")]) pairingSuffix := by decide

/-- C4 amended: after any sequence of Set and Delete operations on
canonical pairing keys (pairing-suffixed, even-length lowercase hex
payload whose decoded text is free of newline and eq-sign bytes) with
newline-free values, starting from the empty namespace,
KeysWithSuffix(".pairing") returns exactly the keys Set and not
subsequently Deleted. -/
theorem c4_enumeration (ops : List Op) (hops : ∀ op ∈ ops, goodOp op = true) :
    NvramStore.KeysWithSuffix (runOps initState ops) pairingSuffix = liveKeys ops := by
  refine keysWithSuffix_of_inv _ _
    (storeInv_runOps ops initState [] ⟨rfl, ?_, ?_⟩ hops)
  · intro k hk
    exact absurd hk (List.not_mem_nil k)
  · intro e he
    exact absurd he (List.not_mem_nil e)

/-- Witness for c4_enumeration: set two pairing keys, delete the first,
and enumerate the second. -/
theorem c4_witness :
    NvramStore.KeysWithSuffix (runOps initState
      [Op.set (str "6162.pairing") (str "u"), Op.set (str "6364.pairing") (str "w"),
        Op.del (str "6162.pairing")]) pairingSuffix = [str "6364.pairing"] := by
  rw [c4_enumeration _ (by decide)]
  decide
